import Mathlib

/-
Verification development for the Torrent-stream streaming gateway
(`server.js` and its revisions).  The definitions below are a shallow
embedding of the session manager's handlers and helpers; JavaScript
numbers that may be `NaN` are modelled explicitly, machine-level
concerns (sockets, child processes) are abstracted to the state they
influence.
-/

namespace TorrentStream

/-! ## JavaScript number model

A JSON body value that participates in arithmetic is either a finite
number (modelled as a rational) or `NaN`.  `JSNum.nan` also stands for
any body value whose numeric coercion / `parseInt` yields `NaN`. -/

inductive JSNum where
  | nan : JSNum
  | num : ℚ → JSNum
deriving DecidableEq

/-- Models `parseInt(v, 10)` on a number-or-NaN value: `NaN ↦ NaN`, a finite
number is truncated toward zero (as `parseInt(String(n), 10)` does for
the decimal renderings produced in this server). `none` models `NaN`. -/
def jsParseInt : JSNum → Option ℤ
  | .nan => none
  | .num q => some (if 0 ≤ q then ⌊q⌋ else ⌈q⌉)

/-- Models `x < 0` in JavaScript where `x` may be `NaN` (any comparison with
`NaN` is false). -/
def jsLtZero : Option ℤ → Bool
  | none => false
  | some z => decide (z < 0)

/-- Models `x >= n` in JavaScript where `x` may be `NaN`. -/
def jsGeNat : Option ℤ → ℕ → Bool
  | none, _ => false
  | some z, n => decide ((n : ℤ) ≤ z)

/-- String interpolation `${x}` for an integer-or-NaN value. -/
def jsIntStr : Option ℤ → String
  | none => "NaN"
  | some z => toString z

/-! ## Session records

One record per stream id (`streams[streamId]` in the source).  Fields
not used by any verified handler are omitted.  `none` in
`currentSegment` / `playbackPosition` models a stored `NaN`;
`segmentDuration = none` models the field being absent. -/

/-- The resolved playable file of a session: its byte contents
(`file.length` is `data.length`, `file.createReadStream(range?)`
yields slices of `data`). -/
structure StreamFile where
  name : String
  data : List ℕ
deriving DecidableEq

structure StreamEntry where
  ready : Bool
  folder : String
  segmentDuration : Option ℚ
  totalSegments : ℕ
  currentSegment : Option ℤ
  playbackPosition : Option ℚ
  file : Option StreamFile
deriving DecidableEq

/-- Models `entry.segmentDuration || 4`: the default kicks in when the field
is absent or `0` (both falsy). -/
def effSegDur (e : StreamEntry) : ℚ :=
  match e.segmentDuration with
  | none => 4
  | some d => if d = 0 then 4 else d

/-! ## POST /seek/:id -/

structure SeekBody where
  time : Option JSNum
  segment : Option JSNum
deriving DecidableEq

inductive SeekResult where
  | notFound : SeekResult
  | notReady : SeekResult
  | missingParam : SeekResult
  | invalidSegment : String → SeekResult
  | seeked : Option ℤ → Option ℚ → SeekResult
deriving DecidableEq

/-- HTTP status code of a seek response. -/
def seekStatus : SeekResult → ℕ
  | .notFound => 404
  | .notReady => 400
  | .missingParam => 400
  | .invalidSegment _ => 400
  | .seeked _ _ => 200

/-- The `error` field of a seek response body, when present. -/
def seekError : SeekResult → Option String
  | .notFound => some "stream not found"
  | .notReady => some "stream not ready"
  | .missingParam => some "time or segment parameter required"
  | .invalidSegment msg => some msg
  | .seeked _ _ => none

/-- The `POST /seek/:id` handler.  Mirrors the source: 404 on unknown
id, 400 when the session is not ready, target from `time` (divided by
the effective segment duration, floored) or else from
`parseInt(segment)`, 400 when neither is given, range validation with
JavaScript comparison semantics, then the advisory cursor is stored
and echoed.  Returns the response and the session record afterwards. -/
def seekRoute (entry? : Option StreamEntry) (body : SeekBody) :
    SeekResult × Option StreamEntry :=
  match entry? with
  | none => (.notFound, none)
  | some e =>
    if e.ready = false then (.notReady, some e)
    else
      let d := effSegDur e
      let target? : Option (Option ℤ) :=
        match body.time with
        | some t =>
          some (match t with
                | .nan => none
                | .num q => some ⌊q / d⌋)
        | none =>
          match body.segment with
          | some sv => some (jsParseInt sv)
          | none => none
      match target? with
      | none => (.missingParam, some e)
      | some target =>
        let tot := e.totalSegments
        if jsLtZero target || (decide (0 < tot) && jsGeNat target tot) then
          (.invalidSegment ("invalid segment " ++ jsIntStr target ++
            ", valid range: 0-" ++ toString ((tot : ℤ) - 1)), some e)
        else
          let pos : Option ℚ :=
            match target with
            | none => none
            | some z => some ((z : ℚ) * d)
          (.seeked target pos,
           some { e with currentSegment := target, playbackPosition := pos })

/-! ## GET /seek-info/:id -/

structure SegmentInfo where
  number : ℤ
  filename : String
  available : Bool
  time : ℚ
deriving DecidableEq

/-- Models `String(i).padStart(3, '0')`. -/
def padStart3 (s : String) : String :=
  if s.length < 3 then String.mk (List.replicate (3 - s.length) '0') ++ s
  else s

/-- Builds `segment_NNN.ts` from `String(i).padStart(3, '0')`. -/
def segFileName (i : ℤ) : String :=
  "segment_" ++ padStart3 (toString i) ++ ".ts"

inductive SeekInfoResult where
  | notFound : SeekInfoResult
  | notReady : SeekInfoResult
  | info : ℤ → ℚ → ℕ → ℚ → List SegmentInfo → SeekInfoResult
deriving DecidableEq

def seekInfoStatus : SeekInfoResult → ℕ
  | .notFound => 404
  | .notReady => 400
  | .info _ _ _ _ _ => 200

def seekInfoError : SeekInfoResult → Option String
  | .notFound => some "stream not found"
  | .notReady => some "stream not ready"
  | .info _ _ _ _ _ => none

/-- The `GET /seek-info/:id` handler.  `avail` models
`fs.existsSync` on segment files of the session folder.  The handler
only reads the record, which the returned pair makes explicit. -/
def seekInfoRoute (entry? : Option StreamEntry) (avail : ℤ → Bool) :
    SeekInfoResult × Option StreamEntry :=
  match entry? with
  | none => (.notFound, none)
  | some e =>
    if e.ready = false then (.notReady, some e)
    else
      let d := effSegDur e
      let tot := e.totalSegments
      let cur : ℤ := match e.currentSegment with
        | none => 0
        | some z => z
      let rangeStart : ℤ := max 0 (cur - 10)
      let rangeEnd : ℤ := min (tot : ℤ) (cur + 10)
      let idxs := (List.range (rangeEnd - rangeStart).toNat).map
        (fun k => rangeStart + (k : ℤ))
      let segs := idxs.map (fun i =>
        ({ number := i, filename := segFileName i, available := avail i,
           time := (i : ℚ) * d } : SegmentInfo))
      let curTime : ℚ := match e.playbackPosition with
        | none => 0
        | some q => q
      (.info cur curTime tot d segs, some e)

/-! ## GET /stream/:id (byte-range serving)

The `Range: bytes=a-b` header is modelled after
`range.replace(/bytes=/, '').split('-')` has been applied to a
well-formed header: `start` is the parsed first bound and `endOpt` the
parsed second bound when one is written. -/

structure RangeSpec where
  start : ℤ
  endOpt : Option ℤ
deriving DecidableEq

inductive StreamResult where
  | notFound : String → StreamResult
  | full200 : List ℕ → StreamResult
  | part206 : String → List ℕ → StreamResult
  | range416 : String → StreamResult
deriving DecidableEq

def streamStatus : StreamResult → ℕ
  | .notFound _ => 404
  | .full200 _ => 200
  | .part206 _ _ => 206
  | .range416 _ => 416

/-- The `GET /stream/:id` handler: 404 for an unknown id, 404
`file not ready` before a playable file is resolved, 200 with the full
bytes without a `Range` header, otherwise the 416/206 range logic.
`createReadStream({start, end})` delivers the bytes `start..end`
inclusive, i.e. an `end-start+1` element slice. -/
def streamRoute (entry? : Option StreamEntry) (range? : Option RangeSpec) :
    StreamResult :=
  match entry? with
  | none => .notFound "stream not found"
  | some e =>
    match e.file with
    | none => .notFound "file not ready"
    | some f =>
      let size : ℤ := f.data.length
      match range? with
      | none => .full200 f.data
      | some r =>
        let start := r.start
        let endv := r.endOpt.getD (size - 1)
        if size ≤ start ∨ size ≤ endv ∨ endv < start then
          .range416 ("bytes */" ++ toString size)
        else
          .part206
            ("bytes " ++ toString start ++ "-" ++ toString endv ++ "/" ++
              toString size)
            ((f.data.drop start.toNat).take (endv - start + 1).toNat)

/-! ## GET /subtitles/:id/:filename (path model)

`path.join` is modelled on `/`-separated components: split both
arguments into components, concatenate, and normalise `.` and `..`
against an absolute root, then render with single separators.  The
session folders produced by the server (`/tmp/<id>`) are already in
this canonical rendered form. -/

/-- Split a string into its nonempty `/`-separated components. -/
def splitCompsAux (cur : List Char) : List Char → List String
  | [] => if cur = [] then [] else [String.mk cur.reverse]
  | c :: cs =>
    if c = '/' then
      if cur = [] then splitCompsAux [] cs
      else String.mk cur.reverse :: splitCompsAux [] cs
    else splitCompsAux (c :: cur) cs

def splitPath (s : String) : List String :=
  splitCompsAux [] s.data

/-- One normalisation step of an absolute path: `.` is dropped, `..`
pops the last component (a no-op at the root), anything else is
appended. -/
def normStep (acc : List String) (c : String) : List String :=
  if c = "." then acc
  else if c = ".." then acc.dropLast
  else acc ++ [c]

def normAbs (cs : List String) : List String :=
  cs.foldl normStep []

/-- Render an absolute path from components (`["tmp","abc"]` becomes
`"/tmp/abc"`). -/
def renderAbs (cs : List String) : String :=
  String.mk (cs.foldr (fun c acc => '/' :: (c.data ++ acc)) [])

/-- Models `path.join(base, fname)` for an absolute `base`. -/
def pathJoin (base fname : String) : String :=
  renderAbs (normAbs (splitPath base ++ splitPath fname))

/-- Models JavaScript `s.startsWith(p)`. -/
def strStartsWith (s p : String) : Bool :=
  p.data.isPrefixOf s.data

/-- The resolved path of `filename` joined to a folder escapes that
folder: the folder's components are not a prefix of the normalised
components of the join. -/
def escapesFolder (folder filename : String) : Bool :=
  ! (splitPath folder).isPrefixOf (normAbs (splitPath folder ++ splitPath filename))

inductive SubtitleResult where
  | notFound : SubtitleResult
  | accessDenied : SubtitleResult
  | fileMissing : SubtitleResult
  | served : String → SubtitleResult
deriving DecidableEq

def subtitleStatus : SubtitleResult → ℕ
  | .notFound => 404
  | .accessDenied => 403
  | .fileMissing => 404
  | .served _ => 200

/-- The `GET /subtitles/:id/:filename` handler: resolve
`path.join(entry.folder, filename)`, reject with 403 when the resolved
string does not start with the folder string, 404 when the file does
not exist, else serve it.  `fileEx` models `fs.existsSync`. -/
def subtitlesRoute (entry? : Option StreamEntry) (filename : String)
    (fileEx : String → Bool) : SubtitleResult :=
  match entry? with
  | none => .notFound
  | some e =>
    let filepath := pathJoin e.folder filename
    if strStartsWith filepath e.folder = false then .accessDenied
    else if fileEx filepath = false then .fileMissing
    else .served filepath

/-! ## Rolling-window retention (`enforceStorageLimit`) -/

/-- A directory entry as seen by `getFolderFilesSorted`. -/
structure FsFile where
  name : String
  size : ℕ
  mtime : ℕ
deriving DecidableEq

/-- Models `getFolderSize`: total bytes of the folder's files. -/
def getFolderSize (files : List FsFile) : ℕ :=
  (files.map (fun f => f.size)).sum

/-- The regex `/segment_\d+\.ts$/`: the name has a suffix
`segment_<digits>.ts` with at least one digit. -/
def isSegmentName (s : String) : Bool :=
  match s.data.reverse with
  | 's' :: 't' :: '.' :: rest =>
    let ds := rest.takeWhile (fun c => c.isDigit)
    let rest2 := rest.dropWhile (fun c => c.isDigit)
    decide (ds ≠ []) && "segment_".data.reverse.isPrefixOf rest2
  | _ => false

/-- Stable insertion (ties keep the earlier element first), mirroring
`files.sort((a, b) => a.mtime - b.mtime)`. -/
def insertByMtime (f : FsFile) : List FsFile → List FsFile
  | [] => [f]
  | g :: gs => if f.mtime ≤ g.mtime then f :: g :: gs else g :: insertByMtime f gs

/-- Models `getFolderFilesSorted`: files sorted by mtime ascending. -/
def sortByMtime : List FsFile → List FsFile
  | [] => []
  | f :: fs => insertByMtime f (sortByMtime fs)

/-- Models JavaScript `arr.slice(-k)`: the last `k` elements, or the whole
array when `k = 0` (because `slice(-0)` is `slice(0)`). -/
def sliceLast (l : List FsFile) (k : ℕ) : List FsFile :=
  if k = 0 then l else l.drop (l.length - k)

/-- Names of the segments the retention pass protects: the newest
`keepSegments` of the mtime-sorted segment files. -/
def keepNames (files : List FsFile) (keepSegments : ℕ) : List String :=
  (sliceLast ((sortByMtime files).filter (fun f => isSegmentName f.name))
    keepSegments).map (fun f => f.name)

/-- The deletion loop of `enforceStorageLimit`: walk the candidates,
skip `playlist.m3u8` and protected segments, delete (collect) one file
at a time while decrementing the running total, stop once the total is
within budget.  Totals are integers exactly as in JavaScript. -/
def retentionGo (keep : List String) (maxB : ℤ) :
    List FsFile → ℤ → List FsFile
  | [], _ => []
  | f :: rest, total =>
    if f.name = "playlist.m3u8" then retentionGo keep maxB rest total
    else if f.name ∈ keep then retentionGo keep maxB rest total
    else if total - (f.size : ℤ) ≤ maxB then [f]
    else f :: retentionGo keep maxB rest (total - (f.size : ℤ))

/-- Models `enforceStorageLimit`: when the folder exceeds `maxBytes`, delete
oldest-first the unprotected segments, then the other files, never
`playlist.m3u8`, stopping as soon as the total is within budget.
Returns the files remaining in the folder. -/
def enforceStorageLimit (files : List FsFile) (maxBytes keepSegments : ℕ) :
    List FsFile :=
  let total : ℤ := getFolderSize files
  if total ≤ (maxBytes : ℤ) then files
  else
    let sorted := sortByMtime files
    let segmentFiles := sorted.filter (fun f => isSegmentName f.name)
    let otherFiles := sorted.filter (fun f => ! isSegmentName f.name)
    let segmentsToKeep := (sliceLast segmentFiles keepSegments).map (fun f => f.name)
    let deletableSegments := segmentFiles.filter (fun f => f.name ∉ segmentsToKeep)
    let candidates := deletableSegments ++ otherFiles
    let deleted := retentionGo segmentsToKeep (maxBytes : ℤ) candidates total
    files.filter (fun f => f.name ∉ deleted.map (fun g => g.name))

/-! ## Transcoder scheduler (`scheduleConversion`)

Process-wide state: the running-subprocess count, the FIFO queue of
pending jobs (by stream id), and the current `MAX_CONCURRENT_FFMPEG`
cap.  Steps model: `Submit` pushes onto the queue; `launch` is a
successful `runNext` admission (guarded by `active < cap`, pops the
head, increments `active`); `launchErr` is a `runNext` whose
`createProc()` threw (the increment is undone in the catch block);
`finish` is a subprocess `end`/`error` callback
(`active = Math.max(0, active - 1)`, which ℕ subtraction mirrors);
`recompute` is the periodic resource watcher overwriting the cap. -/

structure SchedState where
  active : ℕ
  queue : List ℕ
  cap : ℕ
deriving DecidableEq

inductive SchedStep : SchedState → SchedState → Prop where
  | submit (s : SchedState) (id : ℕ) :
      SchedStep s ⟨s.active, s.queue ++ [id], s.cap⟩
  | launch (s : SchedState) (id : ℕ) (rest : List ℕ) :
      s.queue = id :: rest → s.active < s.cap →
      SchedStep s ⟨s.active + 1, rest, s.cap⟩
  | launchErr (s : SchedState) (id : ℕ) (rest : List ℕ) :
      s.queue = id :: rest → s.active < s.cap →
      SchedStep s ⟨s.active, rest, s.cap⟩
  | finish (s : SchedState) :
      SchedStep s ⟨s.active - 1, s.queue, s.cap⟩
  | recompute (s : SchedState) (c : ℕ) :
      SchedStep s ⟨s.active, s.queue, c⟩

/-- States reachable from an idle scheduler with some initial cap. -/
inductive SchedReach : SchedState → Prop where
  | start (c : ℕ) : SchedReach ⟨0, [], c⟩
  | next {s t : SchedState} : SchedReach s → SchedStep s t → SchedReach t

/-- Reachability along executions in which no step changes the cap
(the resource watcher never fires, or recomputes the same value). -/
inductive SchedReachStableCap : SchedState → Prop where
  | start (c : ℕ) : SchedReachStableCap ⟨0, [], c⟩
  | next {s t : SchedState} : SchedReachStableCap s → SchedStep s t →
      t.cap = s.cap → SchedReachStableCap t

/-! ## Dynamic segment duration (`computeSegmentDuration` and the
segment monitor) -/

/-- Models `computeSegmentDuration` as a function of the number of stream
entries and the three environment parameters (defaults 4, 10, 10).
`(active + target - 1) / target` is `Math.ceil(active / TARGET)` for
`target > 0`. -/
def computeSegmentDuration (numStreams minSeg maxSeg target : ℕ) : ℕ :=
  let active := max 1 numStreams
  let factor := max 1 ((active + target - 1) / target)
  min maxSeg (max minSeg (factor * minSeg))

/-- One tick of the segment monitor: recompute the duration from the
current number of sessions; when it changed, overwrite every session's
`segmentDuration` with it.  Returns the updated records and the new
monitor value. -/
def monitorTick (entries : List StreamEntry) (currentDur : ℕ)
    (minSeg maxSeg target : ℕ) : List StreamEntry × ℕ :=
  let newDur := computeSegmentDuration entries.length minSeg maxSeg target
  if newDur ≠ currentDur then
    (entries.map (fun e => { e with segmentDuration := some (newDur : ℚ) }),
     newDur)
  else (entries, currentDur)

/-! ## Sample states used by concrete instances -/

/-- A ready session as produced by `processTorrent` plus the readiness
poll: segment duration 4, 100 segments observed. -/
def eSeek : StreamEntry :=
  { ready := true, folder := "/tmp/abc", segmentDuration := some 4,
    totalSegments := 100, currentSegment := some 0, playbackPosition := some 0,
    file := none }

/-- A ready session before the poll has recorded any segment
(`entry.totalSegments || 0` is `0`). -/
def eSeekEmpty : StreamEntry := { eSeek with totalSegments := 0 }

/-- A session that is not ready yet. -/
def eNotReady : StreamEntry := { eSeek with ready := false }

/-- A one-byte source file and a session that resolved it. -/
def sampleFile : StreamFile := { name := "movie.mp4", data := [7] }

def eWithFile : StreamEntry := { eSeek with file := some sampleFile }

/-- A session folder holding the playlist and six 10-byte segments. -/
def retSample : List FsFile :=
  [⟨"playlist.m3u8", 3000, 1⟩, ⟨"segment_000.ts", 10, 10⟩,
   ⟨"segment_001.ts", 10, 11⟩, ⟨"segment_002.ts", 10, 12⟩,
   ⟨"segment_003.ts", 10, 13⟩, ⟨"segment_004.ts", 10, 14⟩,
   ⟨"segment_005.ts", 10, 15⟩]

/-! ## Theorems -/

theorem jsParseInt_intCast (s : ℤ) : jsParseInt (.num (s : ℚ)) = some s := by
  simp only [jsParseInt]
  by_cases hs : (0 : ℚ) ≤ (s : ℚ) <;> simp [hs]

/-- C8: a `POST /seek/:id` or `GET /seek-info/:id` on an existing
session that is not ready is answered with HTTP 400 and error body
`stream not ready`, and the session record is returned unchanged. -/
theorem seek_requires_ready (e : StreamEntry) (body : SeekBody)
    (avail : ℤ → Bool) (h : e.ready = false) :
    seekRoute (some e) body = (.notReady, some e) ∧
    seekInfoRoute (some e) avail = (.notReady, some e) ∧
    seekStatus (seekRoute (some e) body).1 = 400 ∧
    seekInfoStatus (seekInfoRoute (some e) avail).1 = 400 ∧
    seekError (seekRoute (some e) body).1 = some "stream not ready" ∧
    seekInfoError (seekInfoRoute (some e) avail).1 = some "stream not ready" := by
  simp [seekRoute, seekInfoRoute, h, seekStatus, seekInfoStatus, seekError,
    seekInfoError]

theorem seek_requires_ready_witness :
    eNotReady.ready = false ∧
    seekRoute (some eNotReady) ⟨some (.num 17), none⟩ = (.notReady, some eNotReady) := by
  refine ⟨by decide, ?_⟩
  exact (seek_requires_ready eNotReady ⟨some (.num 17), none⟩ (fun _ => false)
    (by decide)).1

/-- C9: a `GET /stream/:id` on an existing session whose playable file
has not been resolved yet is answered 404 `file not ready`, never with
a 200 or 206 byte response. -/
theorem stream_requires_file (e : StreamEntry) (range? : Option RangeSpec)
    (h : e.file = none) :
    streamRoute (some e) range? = .notFound "file not ready" ∧
    streamStatus (streamRoute (some e) range?) = 404 := by
  simp [streamRoute, h, streamStatus]

theorem stream_requires_file_witness :
    eSeek.file = none ∧
    streamRoute (some eSeek) (some ⟨0, some 10⟩) = .notFound "file not ready" := by
  refine ⟨by decide, ?_⟩
  exact (stream_requires_file eSeek (some ⟨0, some 10⟩) (by decide)).1

/-- C10: a `POST /seek/:id` on a ready session whose `segment` body
value parses to `NaN` (modelled by `JSNum.nan`, `none` after
`parseInt`) is not caught by the range validation, so the server
answers 200 and stores `currentSegment = NaN` and
`playbackPosition = NaN` (both `none`). -/
theorem seek_nan_segment_accepted (e : StreamEntry) (h : e.ready = true) :
    seekRoute (some e) ⟨none, some .nan⟩ =
      (.seeked none none,
       some { e with currentSegment := none, playbackPosition := none }) ∧
    seekStatus (seekRoute (some e) ⟨none, some .nan⟩).1 = 200 := by
  simp [seekRoute, h, jsParseInt, jsLtZero, jsGeNat, seekStatus]

theorem seek_nan_segment_accepted_witness :
    eSeek.ready = true ∧
    seekRoute (some eSeek) ⟨none, some .nan⟩ =
      (.seeked none none,
       some { eSeek with currentSegment := none, playbackPosition := none }) := by
  refine ⟨by decide, ?_⟩
  exact (seek_nan_segment_accepted eSeek (by decide)).1

/-- C1: when `POST /seek/:id {time: T}` on an existing ready session
with stored segment duration `d` answers HTTP 200, the response and
the stored record both carry
`currentSegment = ⌊T / d⌋` and `playbackPosition = currentSegment * d`. -/
theorem seek_time_floor (e : StreamEntry) (T d : ℚ) (body : SeekBody)
    (hready : e.ready = true) (hdur : e.segmentDuration = some d) (hd : d ≠ 0)
    (htime : body.time = some (JSNum.num T))
    (h200 : seekStatus (seekRoute (some e) body).1 = 200) :
    (seekRoute (some e) body).1 =
      .seeked (some ⌊T / d⌋) (some ((⌊T / d⌋ : ℚ) * d)) ∧
    (seekRoute (some e) body).2 =
      some { e with currentSegment := some ⌊T / d⌋,
                    playbackPosition := some ((⌊T / d⌋ : ℚ) * d) } := by
  have heff : effSegDur e = d := by simp [effSegDur, hdur, hd]
  by_cases hc : (jsLtZero (some ⌊T / d⌋) ||
      (decide (0 < e.totalSegments) && jsGeNat (some ⌊T / d⌋) e.totalSegments)) = true
  · exfalso
    simp only [seekRoute, hready, htime, heff] at h200
    rw [if_neg (by simp)] at h200
    simp only [hc, if_true] at h200
    simp [seekStatus] at h200
  · rw [Bool.not_eq_true] at hc
    simp only [seekRoute, hready, htime, heff]
    rw [if_neg (by simp)]
    simp [hc]

theorem seek_time_floor_witness :
    seekStatus (seekRoute (some eSeek) ⟨some (.num 17), none⟩).1 = 200 ∧
    (seekRoute (some eSeek) ⟨some (.num 17), none⟩).1 =
      .seeked (some 4) (some 16) := by
  have hfloor : (⌊(17 : ℚ) / 4⌋ : ℤ) = 4 := by norm_num
  have h200 : seekStatus (seekRoute (some eSeek) ⟨some (.num 17), none⟩).1 = 200 := by
    norm_num [seekRoute, eSeek, effSegDur, jsLtZero, jsGeNat, seekStatus, hfloor]
  have h := seek_time_floor eSeek 17 4 ⟨some (.num 17), none⟩ rfl rfl
    (by norm_num) rfl h200
  refine ⟨h200, ?_⟩
  rw [h.1, hfloor]
  norm_num

/-- C7 (amended): on a ready session, a numeric integer `segment`
target `s` is rejected with 400 and the message
`invalid segment s, valid range: 0-(total-1)` exactly when `s < 0` or
(`total > 0` and `s ≥ total`) — so negative targets are rejected even
when no segments have been observed — and the session is unchanged on
rejection; every other integer target is accepted and stored. -/
theorem seek_segment_validation (e : StreamEntry) (s : ℤ)
    (hready : e.ready = true) :
    (s < 0 ∨ (0 < e.totalSegments ∧ (e.totalSegments : ℤ) ≤ s) →
      seekRoute (some e) ⟨none, some (.num (s : ℚ))⟩ =
        (.invalidSegment ("invalid segment " ++ toString s ++
          ", valid range: 0-" ++ toString ((e.totalSegments : ℤ) - 1)), some e) ∧
      seekStatus (seekRoute (some e) ⟨none, some (.num (s : ℚ))⟩).1 = 400)
    ∧ (¬(s < 0 ∨ (0 < e.totalSegments ∧ (e.totalSegments : ℤ) ≤ s)) →
      seekRoute (some e) ⟨none, some (.num (s : ℚ))⟩ =
        (.seeked (some s) (some ((s : ℚ) * effSegDur e)),
         some { e with currentSegment := some s,
                       playbackPosition := some ((s : ℚ) * effSegDur e) })) := by
  constructor
  · intro hcond
    have hb : (jsLtZero (some s) ||
        (decide (0 < e.totalSegments) && jsGeNat (some s) e.totalSegments)) = true := by
      simpa [jsLtZero, jsGeNat] using hcond
    constructor <;>
      simp [seekRoute, hready, jsParseInt_intCast, hb, jsIntStr, seekStatus]
  · intro hcond
    have hb : (jsLtZero (some s) ||
        (decide (0 < e.totalSegments) && jsGeNat (some s) e.totalSegments)) = false := by
      simpa [jsLtZero, jsGeNat] using hcond
    simp [seekRoute, hready, jsParseInt_intCast, hb]

theorem seek_segment_validation_witness :
    seekRoute (some eSeek) ⟨none, some (.num ((999 : ℤ) : ℚ))⟩ =
      (.invalidSegment "invalid segment 999, valid range: 0-99", some eSeek) := by
  have h := (seek_segment_validation eSeek 999 rfl).1 (by norm_num [eSeek])
  rw [h.1]
  rfl

/-- C7 counterexample: the claim accepts every target when
`totalSegments = 0`, but the code rejects the target `-1` with 400
(`invalid segment -1, valid range: 0--1`) on a ready session with no
observed segments. -/
theorem seek_negative_rejected_without_segments :
    seekStatus (seekRoute (some eSeekEmpty) ⟨none, some (.num (-1 : ℚ))⟩).1 = 400 ∧
    (seekRoute (some eSeekEmpty) ⟨none, some (.num (-1 : ℚ))⟩).1 =
      .invalidSegment "invalid segment -1, valid range: 0--1" := by
  have hpi : jsParseInt (.num (-1 : ℚ)) = some (-1) := by
    rw [show (-1 : ℚ) = ((-1 : ℤ) : ℚ) by norm_num, jsParseInt_intCast]
  constructor
  · simp [seekRoute, eSeekEmpty, eSeek, hpi, jsLtZero, jsGeNat, seekStatus]
  · simp [seekRoute, eSeekEmpty, eSeek, hpi, jsLtZero, jsGeNat, jsIntStr]
    rfl

/-- C5 (amended): after the transcoder starts, the only operation that
changes a session's stored `segmentDuration` is the global segment
monitor, which overwrites every session's value with the freshly
computed global duration whenever that differs from the previous one;
`POST /seek/:id` never changes it. -/
theorem segment_duration_mutation_sources :
    (∀ (e : StreamEntry) (body : SeekBody),
      ((seekRoute (some e) body).2.map (fun x => x.segmentDuration)) =
        some e.segmentDuration)
    ∧ (∀ (entries : List StreamEntry) (cur minSeg maxSeg target : ℕ),
      (monitorTick entries cur minSeg maxSeg target).1 =
        if computeSegmentDuration entries.length minSeg maxSeg target = cur
        then entries
        else entries.map (fun e =>
          { e with
            segmentDuration :=
              some ((computeSegmentDuration entries.length minSeg maxSeg target : ℕ) : ℚ) })) := by
  constructor
  · intro e body
    rcases body with ⟨t, sg⟩
    by_cases hr : e.ready = false
    · simp [seekRoute, hr]
    · cases t with
      | none =>
        cases sg with
        | none => simp [seekRoute, hr]
        | some v => simp only [seekRoute, hr]; split_ifs <;> simp
      | some tv =>
        cases tv <;> (simp only [seekRoute, hr]; split_ifs <;> simp)
  · intro entries cur minSeg maxSeg target
    by_cases h : computeSegmentDuration entries.length minSeg maxSeg target = cur <;>
      simp [monitorTick, h]

/-- C5 counterexample: a session whose transcoder started when it was
alone (stored duration 4, the value `computeSegmentDuration` yields
for one session) has its stored duration overwritten to 8 by a
monitor tick taken when 11 sessions exist. -/
theorem segment_duration_changed_after_start :
    computeSegmentDuration 1 4 10 10 = 4 ∧
    eSeek.segmentDuration = some 4 ∧
    ((monitorTick (List.replicate 11 eSeek) 4 4 10 10).1.map
      (fun e => e.segmentDuration)) = List.replicate 11 (some 8) ∧
    (some (8 : ℚ)) ≠ (some (4 : ℚ)) := by
  refine ⟨by decide, rfl, ?_, by norm_num⟩
  decide

/-- C4 counterexample: the state with 2 running transcoders and cap 1
is reachable (admit two jobs under cap 2, then the resource watcher
recomputes the cap down to 1), so `active ≤ cap` is not an invariant
of the full scheduler. -/
theorem sched_active_exceeds_cap_reachable :
    SchedReach ⟨2, [], 1⟩ ∧
    ¬ ((⟨2, [], 1⟩ : SchedState).active ≤ (⟨2, [], 1⟩ : SchedState).cap) := by
  constructor
  · have h0 : SchedReach ⟨0, [], 2⟩ := SchedReach.start 2
    have h1 : SchedReach ⟨0, [7], 2⟩ := h0.next (SchedStep.submit ⟨0, [], 2⟩ 7)
    have h2 : SchedReach ⟨1, [], 2⟩ :=
      h1.next (SchedStep.launch ⟨0, [7], 2⟩ 7 [] rfl (by decide))
    have h3 : SchedReach ⟨1, [8], 2⟩ := h2.next (SchedStep.submit ⟨1, [], 2⟩ 8)
    have h4 : SchedReach ⟨2, [], 2⟩ :=
      h3.next (SchedStep.launch ⟨1, [8], 2⟩ 8 [] rfl (by decide))
    exact h4.next (SchedStep.recompute ⟨2, [], 2⟩ 1)
  · decide

/-- C4 (amended): along any execution in which no step changes the
concurrency cap, `active ≤ cap` holds in every reachable scheduler
state; a downward recomputation of the cap is the only way to violate
it, and running jobs are then not killed. -/
theorem sched_cap_invariant_stable_cap (s : SchedState)
    (h : SchedReachStableCap s) : s.active ≤ s.cap := by
  induction h with
  | start c => exact Nat.zero_le c
  | next hr hstep hcap ih =>
    cases hstep with
    | submit id => simpa using ih
    | launch id rest hq hlt => simpa using hlt
    | launchErr id rest hq hlt => simpa using ih
    | finish => exact le_trans (Nat.sub_le _ _) ih
    | recompute c =>
      simp only at hcap ⊢
      simpa [hcap] using ih

theorem sched_cap_invariant_stable_cap_witness :
    (⟨1, [], 2⟩ : SchedState).active ≤ (⟨1, [], 2⟩ : SchedState).cap := by
  apply sched_cap_invariant_stable_cap
  have h0 : SchedReachStableCap ⟨0, [], 2⟩ := SchedReachStableCap.start 2
  have h1 : SchedReachStableCap ⟨0, [7], 2⟩ :=
    h0.next (SchedStep.submit ⟨0, [], 2⟩ 7) rfl
  exact h1.next (SchedStep.launch ⟨0, [7], 2⟩ 7 [] rfl (by decide)) rfl

/-- C2: byte-range semantics of `GET /stream/:id` on a session whose
source file is resolved.  Without a `Range` header the response is 200
with the full bytes.  With `bytes=start-end` (`end` defaulting to
`size-1`), the response is 416 with `Content-Range: bytes */size`
exactly when `start ≥ size ∨ end ≥ size ∨ start > end`, and otherwise
206 with `Content-Range: bytes start-end/size` and a body of exactly
`end-start+1` bytes. -/
theorem stream_range_semantics (e : StreamEntry) (f : StreamFile)
    (start : ℤ) (endOpt : Option ℤ)
    (hf : e.file = some f) (hstart : 0 ≤ start) :
    streamRoute (some e) none = .full200 f.data
    ∧ ((f.data.length : ℤ) ≤ start ∨
        (f.data.length : ℤ) ≤ endOpt.getD ((f.data.length : ℤ) - 1) ∨
        endOpt.getD ((f.data.length : ℤ) - 1) < start →
        streamRoute (some e) (some ⟨start, endOpt⟩) =
          .range416 ("bytes */" ++ toString (f.data.length : ℤ)))
    ∧ (¬((f.data.length : ℤ) ≤ start ∨
        (f.data.length : ℤ) ≤ endOpt.getD ((f.data.length : ℤ) - 1) ∨
        endOpt.getD ((f.data.length : ℤ) - 1) < start) →
        streamRoute (some e) (some ⟨start, endOpt⟩) =
          .part206 ("bytes " ++ toString start ++ "-" ++
              toString (endOpt.getD ((f.data.length : ℤ) - 1)) ++ "/" ++
              toString (f.data.length : ℤ))
            ((f.data.drop start.toNat).take
              (endOpt.getD ((f.data.length : ℤ) - 1) - start + 1).toNat)
        ∧ (((f.data.drop start.toNat).take
              (endOpt.getD ((f.data.length : ℤ) - 1) - start + 1).toNat).length : ℤ)
            = endOpt.getD ((f.data.length : ℤ) - 1) - start + 1) := by
  refine ⟨by simp [streamRoute, hf], ?_, ?_⟩
  · intro h
    simp only [streamRoute, hf]
    rw [if_pos h]
  · intro h
    push_neg at h
    obtain ⟨h1, h2, h3⟩ := h
    refine ⟨?_, ?_⟩
    · simp only [streamRoute, hf]
      rw [if_neg (by push_neg; exact ⟨h1, h2, h3⟩)]
    · simp only [List.length_take, List.length_drop]
      omega

theorem stream_range_semantics_witness :
    streamRoute (some eWithFile) (some ⟨0, some 0⟩) = .part206 "bytes 0-0/1" [7] := by
  have h := (stream_range_semantics eWithFile sampleFile 0 (some 0) rfl
    (by norm_num)).2.2 (by decide)
  rw [h.1]
  rfl

/-! ### Retention lemmas -/

theorem insertByMtime_perm (f : FsFile) (l : List FsFile) :
    List.Perm (insertByMtime f l) (f :: l) := by
  induction l with
  | nil => exact List.Perm.refl _
  | cons g gs ih =>
    simp only [insertByMtime]
    split
    · exact List.Perm.refl _
    · exact (ih.cons g).trans (List.Perm.swap f g gs)

theorem sortByMtime_perm (l : List FsFile) : List.Perm (sortByMtime l) l := by
  induction l with
  | nil => exact List.Perm.refl _
  | cons f fs ih =>
    exact (insertByMtime_perm f (sortByMtime fs)).trans (ih.cons f)

theorem retentionGo_sublist (keep : List String) (maxB : ℤ) :
    ∀ (cands : List FsFile) (total : ℤ),
      List.Sublist (retentionGo keep maxB cands total) cands := by
  intro cands
  induction cands with
  | nil => intro total; simp [retentionGo]
  | cons f rest ih =>
    intro total
    simp only [retentionGo]
    split_ifs with h1 h2 h3
    · exact (ih total).cons f
    · exact (ih total).cons f
    · exact (List.nil_sublist rest).cons₂ f
    · exact (ih (total - f.size)).cons₂ f

theorem retentionGo_mem (keep : List String) (maxB : ℤ) :
    ∀ (cands : List FsFile) (total : ℤ) (g : FsFile),
      g ∈ retentionGo keep maxB cands total →
      g.name ≠ "playlist.m3u8" ∧ g.name ∉ keep := by
  intro cands
  induction cands with
  | nil => intro total g h; simp [retentionGo] at h
  | cons f rest ih =>
    intro total g h
    simp only [retentionGo] at h
    split_ifs at h with h1 h2 h3
    · exact ih total g h
    · exact ih total g h
    · simp only [List.mem_singleton] at h; subst h; exact ⟨h1, h2⟩
    · rcases List.mem_cons.mp h with rfl | h0
      · exact ⟨h1, h2⟩
      · exact ih (total - f.size) g h0

theorem retentionGo_total_or_all (keep : List String) (maxB : ℤ) :
    ∀ (cands : List FsFile) (total : ℤ),
      total - (getFolderSize (retentionGo keep maxB cands total) : ℤ) ≤ maxB ∨
      (∀ f ∈ cands, f.name ≠ "playlist.m3u8" → f.name ∉ keep →
        f ∈ retentionGo keep maxB cands total) := by
  intro cands
  induction cands with
  | nil => intro total; right; simp
  | cons f rest ih =>
    intro total
    simp only [retentionGo]
    split_ifs with h1 h2 h3
    · rcases ih total with hl | hr
      · exact Or.inl hl
      · right
        intro g hg hgp hgk
        rcases List.mem_cons.mp hg with rfl | hg0
        · exact absurd h1 hgp
        · exact hr g hg0 hgp hgk
    · rcases ih total with hl | hr
      · exact Or.inl hl
      · right
        intro g hg hgp hgk
        rcases List.mem_cons.mp hg with rfl | hg0
        · exact absurd h2 hgk
        · exact hr g hg0 hgp hgk
    · left
      simpa [getFolderSize] using h3
    · rcases ih (total - f.size) with hl | hr
      · left
        have hs : getFolderSize (f :: retentionGo keep maxB rest (total - f.size)) =
            f.size + getFolderSize (retentionGo keep maxB rest (total - f.size)) := by
          simp [getFolderSize]
        rw [hs]
        push_cast
        omega
      · right
        intro g hg hgp hgk
        rcases List.mem_cons.mp hg with rfl | hg0
        · exact List.mem_cons_self _ _
        · exact List.mem_cons_of_mem f (hr g hg0 hgp hgk)

theorem retentionGo_all_playlist (keep : List String) (maxB : ℤ) :
    ∀ (cands : List FsFile) (total : ℤ),
      (∀ f ∈ cands, f.name = "playlist.m3u8") →
      retentionGo keep maxB cands total = [] := by
  intro cands
  induction cands with
  | nil => intro total _; simp [retentionGo]
  | cons f rest ih =>
    intro total hall
    simp only [retentionGo]
    rw [if_pos (hall f (List.mem_cons_self f rest))]
    exact ih total (fun g hg => hall g (List.mem_cons_of_mem f hg))

theorem getFolderSize_filter_erase (d : FsFile) :
    ∀ (l : List FsFile), (l.map (fun f => f.name)).Nodup → d ∈ l →
      (getFolderSize (l.filter (fun f => ¬ f.name = d.name)) : ℤ) =
        (getFolderSize l : ℤ) - d.size := by
  intro l
  induction l with
  | nil => intro _ hd; simp at hd
  | cons a as ih =>
    intro hnd hd
    rw [List.map_cons, List.nodup_cons] at hnd
    have hnd1 : a.name ∉ as.map (fun f => f.name) := hnd.1
    have hnd2 : (as.map (fun f => f.name)).Nodup := hnd.2
    rcases List.mem_cons.mp hd with rfl | hd0
    · have hall : as.filter (fun f => ¬ f.name = d.name) = as := by
        apply List.filter_eq_self.mpr
        intro g hg
        simp only [decide_eq_true_eq]
        intro hcontra
        exact hnd1 (hcontra ▸ List.mem_map_of_mem (fun f => f.name) hg)
      simp only [List.filter_cons]
      rw [if_neg (by simp)]
      rw [hall]
      simp [getFolderSize]
    · have hane : ¬ a.name = d.name := by
        intro hcontra
        exact hnd1 (hcontra ▸ List.mem_map_of_mem (fun f => f.name) hd0)
      simp only [List.filter_cons]
      rw [if_pos (by simpa using hane)]
      have := ih hnd2 hd0
      simp only [getFolderSize, List.map_cons, List.sum_cons] at this ⊢
      push_cast
      push_cast at this
      omega

theorem getFolderSize_remove_names :
    ∀ (D l : List FsFile), (l.map (fun f => f.name)).Nodup →
      (∀ d ∈ D, d ∈ l) → (D.map (fun f => f.name)).Nodup →
      (getFolderSize (l.filter
        (fun f => f.name ∉ D.map (fun g => g.name))) : ℤ)
        = (getFolderSize l : ℤ) - (getFolderSize D : ℤ) := by
  intro D
  induction D with
  | nil =>
    intro l hnd _ _
    have : l.filter (fun f => f.name ∉ ([] : List FsFile).map (fun g => g.name)) = l := by
      apply List.filter_eq_self.mpr
      intro g hg
      simp
    rw [this]
    simp [getFolderSize]
  | cons d D' ih =>
    intro l hnd hsub hDnd
    have hd : d ∈ l := hsub d (List.mem_cons_self d D')
    rw [List.map_cons, List.nodup_cons] at hDnd
    have hDnd1 : d.name ∉ D'.map (fun f => f.name) := hDnd.1
    have hDnd2 : (D'.map (fun f => f.name)).Nodup := hDnd.2
    have hsplit : l.filter (fun f => f.name ∉ (d :: D').map (fun g => g.name)) =
        (l.filter (fun f => ¬ f.name = d.name)).filter
          (fun f => f.name ∉ D'.map (fun g => g.name)) := by
      rw [List.filter_filter]
      apply List.filter_congr
      intro a _
      by_cases h1 : a.name = d.name <;>
        by_cases h2 : a.name ∈ D'.map (fun g => g.name) <;>
          simp [h1, h2]
    rw [hsplit]
    have hl1nd : ((l.filter (fun f => ¬ f.name = d.name)).map
        (fun f => f.name)).Nodup :=
      hnd.sublist ((List.filter_sublist l).map (fun f => f.name))
    have hsub1 : ∀ d' ∈ D', d' ∈ l.filter (fun f => ¬ f.name = d.name) := by
      intro d' hd'
      have hmem : d' ∈ l := hsub d' (List.mem_cons_of_mem d hd')
      have hne : ¬ d'.name = d.name := by
        intro hcontra
        exact hDnd1 (hcontra ▸ List.mem_map_of_mem (fun f => f.name) hd')
      simp only [List.mem_filter, decide_eq_true_eq]
      exact ⟨hmem, hne⟩
    have h1 := ih (l.filter (fun f => ¬ f.name = d.name)) hl1nd hsub1 hDnd2
    have h2 := getFolderSize_filter_erase d l hnd hd
    rw [h1, h2]
    simp only [getFolderSize, List.map_cons, List.sum_cons]
    push_cast
    ring

theorem enforce_under (files : List FsFile) (B K : ℕ)
    (htot : (getFolderSize files : ℤ) ≤ (B : ℤ)) :
    enforceStorageLimit files B K = files := by
  simp only [enforceStorageLimit]
  rw [if_pos htot]

theorem enforce_over (files : List FsFile) (B K : ℕ)
    (htot : ¬ ((getFolderSize files : ℤ) ≤ (B : ℤ))) :
    enforceStorageLimit files B K =
      files.filter (fun f => f.name ∉
        (retentionGo (keepNames files K) (B : ℤ)
          (((sortByMtime files).filter (fun f => isSegmentName f.name)).filter
              (fun f => f.name ∉ keepNames files K) ++
            (sortByMtime files).filter (fun f => ! isSegmentName f.name))
          (getFolderSize files : ℤ)).map (fun g => g.name)) := by
  simp only [enforceStorageLimit, keepNames]
  rw [if_neg htot]

/-- C3: a single retention pass with budget `B` and `KEEP_SEGMENTS = K`
leaves either a folder of total size ≤ `B`, or only `playlist.m3u8`
plus the newest `K` segment files; `playlist.m3u8` is never deleted,
and in particular an over-budget folder holding only `playlist.m3u8`
loses no file. -/
theorem retention_window (files : List FsFile) (B K : ℕ)
    (_hK : 1 ≤ K) (hnd : (files.map (fun f => f.name)).Nodup) :
    (getFolderSize (enforceStorageLimit files B K) ≤ B ∨
      enforceStorageLimit files B K =
        files.filter (fun f =>
          f.name = "playlist.m3u8" ∨ f.name ∈ keepNames files K))
    ∧ (∀ f ∈ files, f.name = "playlist.m3u8" →
        f ∈ enforceStorageLimit files B K)
    ∧ ((∀ f ∈ files, f.name = "playlist.m3u8") →
        enforceStorageLimit files B K = files) := by
  by_cases htot : (getFolderSize files : ℤ) ≤ (B : ℤ)
  · have hres := enforce_under files B K htot
    refine ⟨Or.inl ?_, ?_, fun _ => hres⟩
    · rw [hres]; exact_mod_cast htot
    · intro f hf _; rw [hres]; exact hf
  · have henf := enforce_over files B K htot
    set sorted := sortByMtime files with hsortedDef
    set keepN := keepNames files K with hkeepDef
    set segs := sorted.filter (fun f => isSegmentName f.name) with hsegsDef
    set others := sorted.filter (fun f => ! isSegmentName f.name) with hothersDef
    set delSegs := segs.filter (fun f => f.name ∉ keepN) with hdelDef
    set cands := delSegs ++ others with hcandsDef
    set D := retentionGo keepN (B : ℤ) cands (getFolderSize files : ℤ) with hDdef
    have hsp : List.Perm sorted files := sortByMtime_perm files
    have hsortnd : (sorted.map (fun f => f.name)).Nodup :=
      (hsp.map (fun f => f.name)).nodup_iff.mpr hnd
    have hcand_sub : ∀ g ∈ cands, g ∈ files := by
      intro g hg
      rcases List.mem_append.mp hg with h | h
      · exact hsp.mem_iff.mp (List.mem_of_mem_filter (List.mem_of_mem_filter h))
      · exact hsp.mem_iff.mp (List.mem_of_mem_filter h)
    have hcands_nd : (cands.map (fun f => f.name)).Nodup := by
      rw [hcandsDef, List.map_append, List.nodup_append]
      refine ⟨?_, ?_, ?_⟩
      · exact hsortnd.sublist
          (((List.filter_sublist _).trans (List.filter_sublist _)).map _)
      · exact hsortnd.sublist ((List.filter_sublist _).map _)
      · intro x hx1 hx2
        obtain ⟨f1, hf1, hx1e⟩ := List.mem_map.mp hx1
        obtain ⟨f2, hf2, hx2e⟩ := List.mem_map.mp hx2
        have hseg1 : isSegmentName f1.name = true :=
          (List.mem_filter.mp (List.mem_of_mem_filter hf1)).2
        have hseg2 : (! isSegmentName f2.name) = true :=
          (List.mem_filter.mp hf2).2
        rw [hx1e] at hseg1
        rw [hx2e] at hseg2
        rw [hseg1] at hseg2
        exact absurd hseg2 (by decide)
    have hDsub := retentionGo_sublist keepN (B : ℤ) cands (getFolderSize files : ℤ)
    have hDnd : (D.map (fun f => f.name)).Nodup :=
      hcands_nd.sublist (hDsub.map _)
    have hDmem : ∀ d ∈ D, d ∈ files := fun d hd => hcand_sub d (hDsub.subset hd)
    have hDprops := retentionGo_mem keepN (B : ℤ) cands (getFolderSize files : ℤ)
    have hnotinD : ∀ (x : String), x = "playlist.m3u8" ∨ x ∈ keepN →
        x ∉ D.map (fun g => g.name) := by
      intro x hor hmem
      obtain ⟨g, hg, hge⟩ := List.mem_map.mp hmem
      obtain ⟨hgp, hgk⟩ := hDprops g hg
      rcases hor with h | h
      · exact hgp (hge.trans h)
      · exact hgk (hge ▸ h)
    refine ⟨?_, ?_, ?_⟩
    · rcases retentionGo_total_or_all keepN (B : ℤ) cands
        (getFolderSize files : ℤ) with hl | hr
      · left
        rw [← hDdef] at hl
        have hacct := getFolderSize_remove_names D files hnd hDmem hDnd
        rw [henf]
        have : (getFolderSize (files.filter
            (fun f => f.name ∉ D.map (fun g => g.name))) : ℤ) ≤ (B : ℤ) := by
          rw [hacct]; omega
        exact_mod_cast this
      · right
        rw [henf]
        apply List.filter_congr
        intro f hf
        rw [decide_eq_decide]
        constructor
        · intro hnot
          by_contra hneg
          push_neg at hneg
          obtain ⟨hp, hk⟩ := hneg
          have hfc : f ∈ cands := by
            by_cases hseg : isSegmentName f.name = true
            · refine List.mem_append_left _ ?_
              rw [hdelDef]
              refine List.mem_filter.mpr ⟨?_, by simpa using hk⟩
              exact List.mem_filter.mpr ⟨hsp.mem_iff.mpr hf, hseg⟩
            · refine List.mem_append_right _ ?_
              rw [hothersDef]
              exact List.mem_filter.mpr ⟨hsp.mem_iff.mpr hf, by simp [hseg]⟩
          exact hnot (List.mem_map_of_mem (fun g => g.name) (hr f hfc hp hk))
        · exact hnotinD f.name
    · intro f hf hfp
      rw [henf]
      exact List.mem_filter.mpr ⟨hf, by simpa using hnotinD f.name (Or.inl hfp)⟩
    · intro hall
      have hD0 : D = [] :=
        retentionGo_all_playlist keepN (B : ℤ) cands (getFolderSize files : ℤ)
          (fun g hg => hall g (hcand_sub g hg))
      rw [henf, hD0]
      apply List.filter_eq_self.mpr
      intro g _
      simp

theorem retention_window_witness :
    (1 ≤ 2 ∧ (retSample.map (fun f => f.name)).Nodup) ∧
    (getFolderSize (enforceStorageLimit retSample 3025 2) ≤ 3025 ∨
      enforceStorageLimit retSample 3025 2 =
        retSample.filter (fun f =>
          f.name = "playlist.m3u8" ∨ f.name ∈ keepNames retSample 2)) := by
  refine ⟨⟨by decide, by decide⟩, ?_⟩
  exact (retention_window retSample 3025 2 (by decide) (by decide)).1

/-! ### Path lemmas for the subtitle route -/

theorem splitCompsAux_sepfree :
    ∀ (cs cur : List Char), (∀ c ∈ cs, c ≠ '/') →
      splitCompsAux cur cs =
        if cur.reverse ++ cs = [] then []
        else [String.mk (cur.reverse ++ cs)] := by
  intro cs
  induction cs with
  | nil =>
    intro cur _
    by_cases h : cur = [] <;> simp [splitCompsAux, h]
  | cons c cs' ih =>
    intro cur hsep
    have hc : c ≠ '/' := hsep c (List.mem_cons_self c cs')
    simp only [splitCompsAux]
    rw [if_neg hc, ih (c :: cur) (fun x hx => hsep x (List.mem_cons_of_mem c hx))]
    have h1 : (c :: cur).reverse ++ cs' = cur.reverse ++ (c :: cs') := by
      simp
    rw [h1]

theorem splitPath_single (s : String) (h : ∀ c ∈ s.data, c ≠ '/') :
    splitPath s = if s.data = [] then [] else [s] := by
  unfold splitPath
  rw [splitCompsAux_sepfree s.data [] h]
  simp

theorem normAbs_wf :
    ∀ (cs acc : List String), (∀ c ∈ cs, c ≠ "." ∧ c ≠ "..") →
      cs.foldl normStep acc = acc ++ cs := by
  intro cs
  induction cs with
  | nil => intro acc _; simp
  | cons c cs' ih =>
    intro acc h
    have hc := h c (List.mem_cons_self c cs')
    simp only [List.foldl_cons]
    rw [show normStep acc c = acc ++ [c] by simp [normStep, hc.1, hc.2]]
    rw [ih (acc ++ [c]) (fun x hx => h x (List.mem_cons_of_mem c hx))]
    simp

theorem renderAbs_len (cs : List String) :
    (renderAbs cs).data.length = (cs.map (fun c => c.data.length + 1)).sum := by
  unfold renderAbs
  induction cs with
  | nil => rfl
  | cons c cs' ih =>
    simp only [List.foldr_cons, List.map_cons, List.sum_cons] at ih ⊢
    simp only [List.length_cons, List.length_append]
    omega

/-- C6 (amended): every `GET /subtitles/:id/:filename` whose decoded
filename is a single path segment (no `/`) and whose resolved path
escapes the session folder is rejected with 403; filenames containing
separators can, however, escape while passing the raw string-prefix
check (see the counterexample, a sibling folder whose name extends the
session folder's). -/
theorem subtitle_escape_denied_single_segment
    (e : StreamEntry) (filename : String) (fileEx : String → Bool)
    (hfolder : renderAbs (splitPath e.folder) = e.folder)
    (hne : splitPath e.folder ≠ [])
    (hwf : ∀ c ∈ splitPath e.folder, c ≠ "." ∧ c ≠ "..")
    (hsingle : ∀ c ∈ filename.data, c ≠ '/')
    (hesc : escapesFolder e.folder filename = true) :
    subtitlesRoute (some e) filename fileEx = .accessDenied := by
  have hsp := splitPath_single filename hsingle
  unfold escapesFolder at hesc
  by_cases hemp : filename.data = []
  · exfalso
    rw [hsp, if_pos hemp, List.append_nil] at hesc
    unfold normAbs at hesc
    rw [normAbs_wf _ [] hwf, List.nil_append] at hesc
    rw [ List.isPrefixOf_iff_prefix.mpr (List.prefix_refl _)] at hesc
    simp at hesc
  · rw [hsp, if_neg hemp] at hesc
    by_cases hdot : filename = "."
    · exfalso
      unfold normAbs at hesc
      rw [List.foldl_append, normAbs_wf _ [] hwf, List.nil_append] at hesc
      simp only [hdot, List.foldl_cons, List.foldl_nil] at hesc
      rw [show normStep (splitPath e.folder) "." = splitPath e.folder by
        simp [normStep]] at hesc
      rw [ List.isPrefixOf_iff_prefix.mpr (List.prefix_refl _)] at hesc
      simp at hesc
    · by_cases hdd : filename = ".."
      · subst hdd
        simp only [subtitlesRoute]
        have hnorm : pathJoin e.folder ".." =
            renderAbs ((splitPath e.folder).dropLast) := by
          unfold pathJoin
          congr 1
          rw [show splitPath ".." = [".."] from rfl]
          unfold normAbs
          rw [List.foldl_append, normAbs_wf _ [] hwf, List.nil_append]
          simp [normStep]
        rw [hnorm]
        have hlen : ((renderAbs ((splitPath e.folder).dropLast)).data).length <
            ((renderAbs (splitPath e.folder)).data).length := by
          rw [renderAbs_len, renderAbs_len]
          obtain ⟨init, lastc, hfc⟩ :
              ∃ init lastc, splitPath e.folder = init ++ [lastc] :=
            ⟨_, _, (List.dropLast_append_getLast hne).symm⟩
          rw [hfc, List.dropLast_concat]
          simp only [List.map_append, List.sum_append, List.map_cons,
            List.sum_cons, List.map_nil, List.sum_nil]
          omega
        have hsw : strStartsWith (renderAbs ((splitPath e.folder).dropLast))
            e.folder = false := by
          unfold strStartsWith
          by_contra hcon
          rw [Bool.not_eq_false] at hcon
          have hle := ( List.isPrefixOf_iff_prefix.mp hcon).length_le
          have hfl : e.folder.data.length =
              (renderAbs (splitPath e.folder)).data.length := by
            rw [hfolder]
          omega
        rw [if_pos hsw]
      · exfalso
        unfold normAbs at hesc
        rw [List.foldl_append, normAbs_wf _ [] hwf, List.nil_append] at hesc
        simp only [List.foldl_cons, List.foldl_nil] at hesc
        rw [show normStep (splitPath e.folder) filename =
            splitPath e.folder ++ [filename] by
          simp [normStep, hdot, hdd]] at hesc
        rw [ List.isPrefixOf_iff_prefix.mpr (List.prefix_append _ _)] at hesc
        simp at hesc

theorem subtitle_escape_denied_single_segment_witness :
    subtitlesRoute (some eSeek) ".." (fun _ => true) = .accessDenied := by
  exact subtitle_escape_denied_single_segment eSeek ".." (fun _ => true)
    (by decide) (by decide) (by decide) (by decide) (by decide)

/-- C6 counterexample: for the session folder `/tmp/abc`, the filename
`../abcd` resolves to `/tmp/abcd`, which lies outside the folder, yet
the raw `startsWith` prefix check accepts it (and the handler proceeds
to serve the file), so not every escaping request is rejected. -/
theorem subtitle_path_check_bypass :
    escapesFolder "/tmp/abc" "../abcd" = true ∧
    pathJoin "/tmp/abc" "../abcd" = "/tmp/abcd" ∧
    subtitlesRoute (some eSeek) "../abcd" (fun _ => true) =
      .served "/tmp/abcd" := by
  refine ⟨by decide, by decide, by decide⟩

end TorrentStream
